import Mathlib

/-!
Shallow embedding of the GraphAlfred backend store (src/backend/src/main.rs).

Modelling conventions:
* SQLite rows become Lean lists; the `notes` table is `List Note`, the `links`
  table is `List (Int × Int)` holding canonical `(source_id, target_id)` pairs.
* `i64` ids become `Int`; `f64` coordinates become `ℝ` (exact-real model of the
  float formulas); the SQL `datetime('now')` timestamps become an abstract
  `Nat` clock value `now` threaded into every mutating operation.
* `AUTOINCREMENT` id assignment is modelled by a `next_id` counter
  (`last_insert_rowid` returns it and it then increments).
* Fallible Rust functions returning `anyhow::Result` become functions
  returning `Except String _`; since the Rust methods mutate `self.conn` even
  when they later fail, every mutating operation also returns the resulting
  `Store`, which equals the input store exactly when the real code performed
  no SQL mutation before failing.
* The schema trigger `notes_touch_updated_at` (AFTER UPDATE OF title,
  subtitle, content, x, y) is modelled by setting `updated_at := now` in every
  operation that issues an `UPDATE` naming one of those columns, because a
  SQLite `UPDATE OF` trigger fires whenever a listed column appears in the
  SET clause.
* `PRAGMA foreign_keys = ON` plus `REFERENCES notes(id)` means a link INSERT
  whose endpoint is missing fails (SQLite's `OR IGNORE` does not downgrade
  FOREIGN KEY violations); a duplicate primary key or a CHECK violation is
  silently ignored by `INSERT OR IGNORE`.
-/

namespace GraphAlfred

/-- Rust `str::trim`: drop leading and trailing whitespace (modelled over the
common ASCII whitespace characters via `Char.isWhitespace`). -/
def strTrim (s : String) : String :=
  ⟨((s.data.dropWhile Char.isWhitespace).reverse.dropWhile
      Char.isWhitespace).reverse⟩

/-- A row of the `notes` table, as surfaced by `map_note_row`
(id, title, subtitle, content, x, y, updated_at). -/
structure Note where
  id : Int
  title : String
  subtitle : String
  content : String
  x : ℝ
  y : ℝ
  updated_at : Nat

/-- `CreateNoteRequest` from main.rs. -/
structure CreateNoteRequest where
  title : String
  subtitle : Option String
  content : Option String
  x : Option ℝ
  y : Option ℝ
  related_ids : Option (List Int)

/-- `UpdateNoteRequest` from main.rs. -/
structure UpdateNoteRequest where
  title : String
  subtitle : String
  content : String
  x : ℝ
  y : ℝ
  related_ids : Option (List Int)

/-- The relational state of `Store`: the `notes` and `links` tables plus the
AUTOINCREMENT counter. (The tantivy `SearchIndex` holds no relational state
and is modelled separately, as an oracle argument to `search_notes`.) -/
structure Store where
  notes : List Note
  links : List (Int × Int)
  next_id : Int

/-- `Store::note_exists` (SELECT EXISTS(SELECT 1 FROM notes WHERE id = ?1)). -/
def Store.note_exists (s : Store) (id : Int) : Bool :=
  s.notes.any (fun n => n.id == id)

/-- `Store::get_note` (SELECT ... FROM notes WHERE id = ?1). Ids are unique
(primary key), so the first matching row is the row. -/
def Store.get_note (s : Store) (id : Int) : Option Note :=
  s.notes.find? (fun n => n.id == id)

/-- `normalize_edge` from main.rs: reject self-loops, order the pair. -/
def normalize_edge (a b : Int) : Except String (Int × Int) :=
  if a == b then
    .error "a note cannot link to itself"
  else if a < b then
    .ok (a, b)
  else
    .ok (b, a)

/-- SQL `INSERT OR IGNORE INTO links (source_id, target_id) VALUES (?1, ?2)`
under `PRAGMA foreign_keys = ON`: a FOREIGN KEY violation is an error,
a PRIMARY KEY duplicate or CHECK(source_id != target_id) violation is
silently ignored. -/
def Store.insert_link_sql (s : Store) (a b : Int) : Except String Store :=
  if !(s.note_exists a) || !(s.note_exists b) then
    .error "FOREIGN KEY constraint failed"
  else if a == b then
    .ok s
  else if (a, b) ∈ s.links then
    .ok s
  else
    .ok ⟨s.notes, s.links ++ [(a, b)], s.next_id⟩

/-- `Store::upsert_link_raw`: normalize, check both endpoints exist,
INSERT OR IGNORE, return the canonical link. The returned store equals the
input store whenever an error is produced (all errors precede the INSERT). -/
def Store.upsert_link_raw (s : Store) (a b : Int) :
    Except String ((Int × Int) × Store) := do
  let e ← normalize_edge a b
  if !(s.note_exists e.1) || !(s.note_exists e.2) then
    throw "both notes must exist before linking"
  let s' ← s.insert_link_sql e.1 e.2
  pure (e, s')

/-- `Store::create_link` is just `upsert_link_raw` on the payload. -/
def Store.create_link (s : Store) (source_id target_id : Int) :
    Except String ((Int × Int) × Store) :=
  s.upsert_link_raw source_id target_id

/-- `Store::delete_link`: normalize (failing on self-links before touching
the table), DELETE the canonical row, report whether a row was removed. -/
def Store.delete_link (s : Store) (source_id target_id : Int) :
    Except String Bool × Store :=
  match normalize_edge source_id target_id with
  | .error e => (.error e, s)
  | .ok p =>
      (.ok (decide (p ∈ s.links)),
       ⟨s.notes, s.links.filter (fun q => q != p), s.next_id⟩)

/-- The `desired` set of `Store::sync_related_links`: canonical edges pairing
`note_id` with each related id that is not `note_id` itself and currently
exists. The Rust code accumulates into a `HashSet`; we model the set as a
duplicate-free list (first occurrence kept). -/
def Store.desired_edges (s : Store) (note_id : Int) :
    List Int → Except String (List (Int × Int))
  | [] => .ok []
  | r :: rest =>
    if r == note_id then
      s.desired_edges note_id rest
    else if s.note_exists r then do
      let e ← normalize_edge note_id r
      let ds ← s.desired_edges note_id rest
      pure (if e ∈ ds then ds else e :: ds)
    else
      s.desired_edges note_id rest

/-- The insert loop at the end of `Store::sync_related_links`; an INSERT
failure stops the loop, keeping the mutations made so far. -/
def Store.insert_edges_loop (s : Store) :
    List (Int × Int) → Except String Unit × Store
  | [] => (.ok (), s)
  | e :: rest =>
    match s.insert_link_sql e.1 e.2 with
    | .ok s' => s'.insert_edges_loop rest
    | .error err => (.error err, s)

/-- Does edge `e` touch `note_id` (source_id = ?1 OR target_id = ?1)? -/
def touches (note_id : Int) (e : Int × Int) : Bool :=
  e.1 == note_id || e.2 == note_id

/-- `Store::sync_related_links`: compute `desired`, read the `current` edges
touching `note_id`, delete `current - desired`, insert `desired - current`.
The two iteration orders over Rust `HashSet` differences are unspecified;
we fix list order — the final state does not depend on it because deletes of
distinct rows commute, inserts of distinct rows commute, and a failing insert
can only be the first insert attempted when `note_id` itself is missing
(in which case `current` is empty and no delete happened either). -/
def Store.sync_related_links (s : Store) (note_id : Int) (related : List Int) :
    Except String Unit × Store :=
  match s.desired_edges note_id related with
  | .error e => (.error e, s)
  | .ok desired =>
      let keep : Int × Int → Bool := fun e => !(touches note_id e) || decide (e ∈ desired)
      let current := s.links.filter (touches note_id)
      let afterDel : Store := ⟨s.notes, s.links.filter keep, s.next_id⟩
      afterDel.insert_edges_loop (desired.filter (fun e => !(decide (e ∈ current))))

/-- Well-formedness of a store, as guaranteed by the SQL schema: note ids are
unique (PRIMARY KEY) and below the AUTOINCREMENT counter; links are canonical
(CHECK plus `normalize_edge` before every insert), reference existing notes
(FOREIGN KEY), and are unique (PRIMARY KEY). -/
def Store.WF (s : Store) : Prop :=
  (s.notes.map Note.id).Nodup ∧
  (∀ n ∈ s.notes, n.id < s.next_id) ∧
  s.links.Nodup ∧
  (∀ e ∈ s.links, e.1 < e.2 ∧ s.note_exists e.1 ∧ s.note_exists e.2)

instance (s : Store) : Decidable s.WF := by
  unfold Store.WF
  infer_instance

/-- Stable insertion of `x` into a list already sorted by `key` descending:
`x` goes in front of the first element with a strictly smaller key, hence
after every earlier element with an equal key. -/
def insertDescBy {α : Type} (key : α → Nat) (x : α) : List α → List α
  | [] => [x]
  | y :: ys => if key x < key y then y :: insertDescBy key x ys else x :: y :: ys

/-- Stable sort by `key` descending; models both SQL `ORDER BY ... DESC`
(on our abstract timestamps) and Rust's stable
`sort_by_key(|id| Reverse(degree))`: any stable descending sort yields the
same list, and insertion sort is that list. -/
def sortDescBy {α : Type} (key : α → Nat) : List α → List α
  | [] => []
  | x :: xs => insertDescBy key x (sortDescBy key xs)

/-- `Store::list_notes`: SELECT ... ORDER BY updated_at DESC. SQLite leaves
the relative order of equal timestamps unspecified; the model fixes it as
the stable (table-order-preserving) one. -/
def Store.list_notes (s : Store) : List Note :=
  sortDescBy Note.updated_at s.notes

/-- `Store::default_spawn_position`: count = COUNT(*) FROM notes,
ring = count/8 + 1, slot = count % 8, angle = (slot/8)·τ, radius = ring·140;
returns (radius·cos angle, radius·sin angle). -/
noncomputable def default_spawn_position (count : Nat) : ℝ × ℝ :=
  let ring : Nat := count / 8 + 1
  let slot : Nat := count % 8
  let angle : ℝ := ((slot : ℝ) / 8) * (2 * Real.pi)
  let radius : ℝ := (ring : ℝ) * 140
  (radius * Real.cos angle, radius * Real.sin angle)

/-- Modelled from the spec (§4.2 default-spawn algorithm), for comparison
with the code's `default_spawn_position`: ring = count/8 + 1 (integer
division), slot = count mod 8, angle = (slot/8)·2π, radius = ring·140,
position = (radius·cos angle, radius·sin angle). -/
noncomputable def spec_default_spawn (count : Nat) : ℝ × ℝ :=
  ((((count / 8 + 1 : Nat) : ℝ) * 140) *
     Real.cos ((((count % 8 : Nat) : ℝ) / 8) * (2 * Real.pi)),
   (((count / 8 + 1 : Nat) : ℝ) * 140) *
     Real.sin ((((count % 8 : Nat) : ℝ) / 8) * (2 * Real.pi)))

/-- The `related_ids` loop inside `Store::create_note`: for each related id
other than the new note's id, `upsert_link_raw`; the first failure aborts the
loop (note row and earlier links stay — there is no enclosing transaction). -/
def Store.create_links_loop (s : Store) (note : Note) (id : Int) :
    List Int → Except String Note × Store
  | [] => (.ok note, s)
  | r :: rest =>
    if r == id then
      s.create_links_loop note id rest
    else
      match s.upsert_link_raw id r with
      | .ok (_, s') => s'.create_links_loop note id rest
      | .error e => (.error e, s)

/-- `Store::create_note`: validate the trimmed title, default the optional
fields, resolve the position (the default-spawn algorithm runs unless both
x and y are supplied), INSERT the row (AUTOINCREMENT id, updated_at =
datetime('now')), then attempt the related links. -/
noncomputable def Store.create_note (s : Store) (now : Nat)
    (p : CreateNoteRequest) : Except String Note × Store :=
  let title := strTrim p.title
  if title.data.isEmpty then
    (.error "title cannot be empty", s)
  else
    let subtitle := p.subtitle.getD ""
    let content := p.content.getD ""
    let pos : ℝ × ℝ :=
      match p.x, p.y with
      | some x, some y => (x, y)
      | _, _ => default_spawn_position s.notes.length
    let id := s.next_id
    let note : Note := ⟨id, title, subtitle, content, pos.1, pos.2, now⟩
    let s1 : Store := ⟨s.notes ++ [note], s.links, s.next_id + 1⟩
    match p.related_ids with
    | none => (.ok note, s1)
    | some related => s1.create_links_loop note id related

/-- `Store::update_note`: validate the trimmed title, UPDATE all five scalar
columns (storing the trimmed title; `updated == 0` means the id is absent;
the `notes_touch_updated_at` trigger refreshes updated_at), then reconcile
links when `related_ids` is supplied, and re-read the note. -/
def Store.update_note (s : Store) (now : Nat) (id : Int)
    (p : UpdateNoteRequest) : Except String Note × Store :=
  if (strTrim p.title).data.isEmpty then
    (.error "title cannot be empty", s)
  else if !(s.note_exists id) then
    (.error "note not found", s)
  else
    let s1 : Store :=
      ⟨s.notes.map (fun n =>
          if n.id == id then
            ⟨n.id, strTrim p.title, p.subtitle, p.content, p.x, p.y, now⟩
          else n),
       s.links, s.next_id⟩
    match p.related_ids with
    | none =>
        match s1.get_note id with
        | some n => (.ok n, s1)
        | none => (.error "updated note not found", s1)
    | some related =>
        match s1.sync_related_links id related with
        | (.error e, s2) => (.error e, s2)
        | (.ok _, s2) =>
            match s2.get_note id with
            | some n => (.ok n, s2)
            | none => (.error "updated note not found", s2)

/-- `Store::update_note_position`: UPDATE x, y WHERE id (`updated == 0`
means the id is absent); the `notes_touch_updated_at` trigger lists x and y,
so it fires and refreshes updated_at; then re-read the note. -/
def Store.update_note_position (s : Store) (now : Nat) (id : Int)
    (x y : ℝ) : Except String Note × Store :=
  if !(s.note_exists id) then
    (.error "note not found", s)
  else
    let s1 : Store :=
      ⟨s.notes.map (fun n =>
          if n.id == id then ⟨n.id, n.title, n.subtitle, n.content, x, y, now⟩
          else n),
       s.links, s.next_id⟩
    match s1.get_note id with
    | some n => (.ok n, s1)
    | none => (.error "updated note not found", s1)

/-- ASCII lower-casing, the case folding SQLite's `LIKE` applies. -/
def asciiLower (c : Char) : Char :=
  if 'A' ≤ c ∧ c ≤ 'Z' then Char.ofNat (c.toNat + 32) else c

/-- Is `pat` an infix of `hay` (as character lists)? -/
def listInfixB (pat hay : List Char) : Bool :=
  hay.tails.any (fun t => pat.isPrefixOf t)

/-- Modelled from the spec (§4.4 retrieval fallback contract): the
"case-insensitive substring scan" predicate, for comparison with the code's
actual SQL `LIKE` semantics. -/
def strContainsCI (hay pat : String) : Bool :=
  listInfixB (pat.data.map asciiLower) (hay.data.map asciiLower)

/-- SQLite `LIKE` pattern matching over character lists: `%` matches any
(possibly empty) sequence, `_` matches exactly one character, and any other
pattern character matches itself ASCII-case-insensitively (`LIKE` is
case-insensitive by default, so the literal comparison folds both sides
with `asciiLower`). -/
def likeMatch : List Char → List Char → Bool
  | [], t => t.isEmpty
  | c :: p, t =>
    if c = '%' then
      likeMatch p t ||
        (match t with
          | [] => false
          | _ :: t' => likeMatch (c :: p) t')
    else
      match t with
      | [] => false
      | d :: t' =>
        if c = '_' then likeMatch p t'
        else (asciiLower c == asciiLower d) && likeMatch p t'
  termination_by p t => (t.length, p.length)

/-- The SQL predicate `column LIKE '%' || q || '%'` from the fallback of
`Store::search_notes`: the query is embedded UNESCAPED, so `%` and `_`
inside the query keep their wildcard meaning. -/
def sqlLikeContains (hay q : String) : Bool :=
  likeMatch ('%' :: q.data ++ ['%']) hay.data

/-- Does the query contain a SQL LIKE metacharacter (`%` or `_`)? For
queries without one, the fallback's LIKE scan is a plain case-insensitive
substring scan. -/
def hasLikeMeta (q : String) : Bool :=
  q.data.any (fun c => c == '%' || c == '_')

/-- The resolve loop of `Store::search_notes`: each index id is looked up and
missing ones are skipped, preserving the index's order. -/
def Store.resolve_ids (s : Store) : List Int → List Note
  | [] => []
  | id :: rest =>
    match s.get_note id with
    | some n => n :: s.resolve_ids rest
    | none => s.resolve_ids rest

/-- `Store::search_notes`. The tantivy `SearchIndex::search_ids` call is an
external engine; it is passed in as the oracle `searchIds` (the store hands
it the trimmed query, exactly as the code does). The SQL fallback
(`WHERE title LIKE ?1 OR subtitle LIKE ?1 OR content LIKE ?1 ORDER BY
updated_at DESC LIMIT ?2` with ?1 = '%query%', the query embedded
unescaped) is the `sqlLikeContains` filter — wildcards included — over the
timestamp-descending note list. -/
def Store.search_notes (s : Store) (searchIds : String → Nat → List Int)
    (q : String) (limit : Nat) : List Note :=
  let query := strTrim q
  if query.data.isEmpty then
    []
  else
    let ids := searchIds query limit
    if !ids.isEmpty then
      s.resolve_ids ids
    else
      ((s.list_notes).filter (fun n =>
          sqlLikeContains n.title query || sqlLikeContains n.subtitle query ||
            sqlLikeContains n.content query)).take limit

/-- Degree of `id`: links.iter().filter(touching id).count() in
`Store::auto_layout`. -/
def degree (links : List (Int × Int)) (id : Int) : Nat :=
  (links.filter (fun e => e.1 == id || e.2 == id)).length

/-- The `for slot in 0..slots` loop body of `Store::auto_layout`: the ids of
one ring, paired with their ring number and consecutive slot numbers starting
at `slot`. Output entries are (id, ring, slot). -/
def ringBlock (ring : Nat) : Nat → List Int → List (Int × Nat × Nat)
  | _, [] => []
  | slot, id :: rest => (id, ring, slot) :: ringBlock ring (slot + 1) rest

/-- The ring-filling while-loop of `Store::auto_layout`, on the
degree-sorted id list: the first id takes ring 0 alone; ring r ≥ 1 takes the
next (up to) 6·r ids in slots 0,... -/
def assignRing : List Int → Nat → List (Int × Nat × Nat)
  | [], _ => []
  | id :: rest, 0 => (id, 0, 0) :: assignRing rest 1
  | id :: rest, r + 1 =>
      ringBlock (r + 1) 0 ((id :: rest).take (6 * (r + 1)))
        ++ assignRing ((id :: rest).drop (6 * (r + 1))) (r + 2)
  termination_by l _ => l.length
  decreasing_by
    all_goals simp only [List.length_drop, List.length_cons]
    all_goals omega

/-- The full (pure) layout pipeline of `Store::auto_layout`: sort the ids by
degree descending with a stable sort (`sort_by_key(Reverse(degree))`), then
fill rings. -/
def auto_layout_assign (ids : List Int) (links : List (Int × Int)) :
    List (Int × Nat × Nat) :=
  assignRing (sortDescBy (degree links) ids) 0

/-- The coordinates `Store::auto_layout` writes for a (ring, slot)
assignment: the origin for ring 0, otherwise radius = ring·180 and
angle = (slot/slots)·τ with slots = ring·6. -/
noncomputable def layout_point (ring slot : Nat) : ℝ × ℝ :=
  if ring = 0 then (0, 0)
  else
    ((ring : ℝ) * 180 *
       Real.cos (((slot : ℝ) / ((6 * ring : Nat) : ℝ)) * (2 * Real.pi)),
     (ring : ℝ) * 180 *
       Real.sin (((slot : ℝ) / ((6 * ring : Nat) : ℝ)) * (2 * Real.pi)))

/-- `Store::auto_layout`'s persistent effect: every note's position becomes
its assigned ring point (each UPDATE names x and y, so the
`notes_touch_updated_at` trigger also refreshes every updated timestamp);
ids come from `list_notes`, degrees from `list_links` (whose `ORDER BY`
does not change any degree count, so the stored link list serves). -/
noncomputable def Store.auto_layout (s : Store) (now : Nat) : Store :=
  if s.notes.isEmpty then s
  else
    let assign := auto_layout_assign ((s.list_notes).map Note.id) s.links
    ⟨s.notes.map (fun n =>
        match assign.find? (fun e => e.1 == n.id) with
        | some e =>
            ⟨n.id, n.title, n.subtitle, n.content,
             (layout_point e.2.1 e.2.2).1, (layout_point e.2.1 e.2.2).2, now⟩
        | none => n),
     s.links, s.next_id⟩

/-! ## Helper lemmas -/

/-- The canonical (min, max) pair, the ok-value of `normalize_edge`. -/
def canonPair (a b : Int) : Int × Int :=
  if a < b then (a, b) else (b, a)

theorem normalize_edge_self (a : Int) :
    normalize_edge a a = .error "a note cannot link to itself" := by
  simp [normalize_edge]

theorem normalize_edge_of_ne {a b : Int} (h : a ≠ b) :
    normalize_edge a b = .ok (canonPair a b) := by
  simp only [normalize_edge, canonPair, beq_iff_eq, if_neg h]
  by_cases hlt : a < b <;> simp [hlt]

theorem canonPair_eq_minmax (a b : Int) : canonPair a b = (min a b, max a b) := by
  unfold canonPair
  rcases lt_trichotomy a b with h | h | h
  · simp [h, min_eq_left h.le, max_eq_right h.le]
  · simp [h]
  · simp [not_lt_of_lt h, min_eq_right h.le, max_eq_left h.le]

theorem canonPair_comm (a b : Int) : canonPair a b = canonPair b a := by
  simp [canonPair_eq_minmax, min_comm, max_comm]

theorem canonPair_fst_or (a b : Int) :
    ((canonPair a b).1 = a ∧ (canonPair a b).2 = b) ∨
      ((canonPair a b).1 = b ∧ (canonPair a b).2 = a) := by
  unfold canonPair
  by_cases h : a < b <;> simp [h]

/-- Concrete store with one note (id 1), used by witnesses and
counterexamples. -/
def exNote1 : Note := ⟨1, "a", "", "", 0, 0, 5⟩

/-- Concrete second note (id 2). -/
def exNote2 : Note := ⟨2, "b", "", "", 10, 0, 6⟩

/-- Store holding only note 1. -/
def exS1 : Store := ⟨[exNote1], [], 2⟩

/-- Store holding notes 1 and 2 and no links. -/
def exS2 : Store := ⟨[exNote1, exNote2], [], 3⟩

theorem find?_id_map (l : List Note) (f : Note → Note)
    (hf : ∀ n, (f n).id = n.id) (id : Int) :
    (l.map f).find? (fun n => n.id == id) =
      ((l.find? (fun n => n.id == id))).map f := by
  rw [List.find?_map]
  have hp : ((fun n : Note => n.id == id) ∘ f) = fun n : Note => n.id == id := by
    funext n
    simp [Function.comp_apply, hf]
  rw [hp]

theorem note_exists_find? {s : Store} {id : Int}
    (hex : s.note_exists id = true) :
    ∃ old, s.notes.find? (fun n => n.id == id) = some old := by
  have h2 : (s.notes.find? (fun n => n.id == id)).isSome = true := by
    rw [List.find?_isSome]
    simpa [Store.note_exists, List.any_eq_true] using hex
  exact Option.isSome_iff_exists.mp h2

theorem note_exists_eq_of_notes_eq {s1 s2 : Store} (h : s1.notes = s2.notes)
    (x : Int) : s1.note_exists x = s2.note_exists x := by
  simp [Store.note_exists, h]

theorem insert_link_sql_of_exists {s : Store} {a b : Int}
    (ha : s.note_exists a = true) (hb : s.note_exists b = true) :
    ∃ s1, s.insert_link_sql a b = .ok s1 ∧ s1.notes = s.notes ∧
      s1.next_id = s.next_id ∧
      (∀ q, q ∈ s1.links ↔ q ∈ s.links ∨ (q = (a, b) ∧ a ≠ b)) ∧
      (s.links.Nodup → s1.links.Nodup) := by
  have hc : (!(s.note_exists a) || !(s.note_exists b)) = false := by
    rw [ha, hb]; rfl
  by_cases hab : a = b
  · refine ⟨s, ?_, rfl, rfl, ?_, fun h => h⟩
    · simp [Store.insert_link_sql, ha, hb, hab]
    · intro q
      constructor
      · exact Or.inl
      · rintro (h | ⟨-, hne⟩)
        · exact h
        · exact absurd hab hne
  · by_cases hm : (a, b) ∈ s.links
    · refine ⟨s, ?_, rfl, rfl, ?_, fun h => h⟩
      · simp [Store.insert_link_sql, ha, hb, hab, hm]
      · intro q
        constructor
        · exact Or.inl
        · rintro (h | ⟨rfl, -⟩)
          · exact h
          · exact hm
    · refine ⟨⟨s.notes, s.links ++ [(a, b)], s.next_id⟩, ?_, rfl, rfl, ?_, ?_⟩
      · simp [Store.insert_link_sql, ha, hb, hab, hm]
      · intro q
        simp only [List.mem_append, List.mem_singleton]
        constructor
        · rintro (h | rfl)
          · exact Or.inl h
          · exact Or.inr ⟨rfl, hab⟩
        · rintro (h | ⟨rfl, -⟩)
          · exact Or.inl h
          · exact Or.inr rfl
      · intro hnd
        rw [List.nodup_append]
        exact ⟨hnd, List.nodup_singleton _,
          fun q hq hq1 => hm (by rwa [List.mem_singleton.mp hq1] at hq)⟩

theorem upsert_link_raw_of_exists {s : Store} {a b : Int} (hab : a ≠ b)
    (ha : s.note_exists a = true) (hb : s.note_exists b = true) :
    ∃ s1, s.upsert_link_raw a b = .ok (canonPair a b, s1) ∧
      s1.notes = s.notes ∧ s1.next_id = s.next_id ∧
      (∀ q, q ∈ s1.links ↔ q ∈ s.links ∨ q = canonPair a b) ∧
      (s.links.Nodup → s1.links.Nodup) := by
  have he1 : s.note_exists (canonPair a b).1 = true := by
    rcases canonPair_fst_or a b with ⟨h1, -⟩ | ⟨h1, -⟩ <;> rw [h1] <;> assumption
  have he2 : s.note_exists (canonPair a b).2 = true := by
    rcases canonPair_fst_or a b with ⟨-, h2⟩ | ⟨-, h2⟩ <;> rw [h2] <;> assumption
  have hc12 : (canonPair a b).1 ≠ (canonPair a b).2 := by
    rcases canonPair_fst_or a b with ⟨h1, h2⟩ | ⟨h1, h2⟩ <;> rw [h1, h2]
    · exact hab
    · exact hab.symm
  obtain ⟨s1, hins, hnotes, hnext, hlinks, hnd⟩ :=
    insert_link_sql_of_exists he1 he2
  refine ⟨s1, ?_, hnotes, hnext, ?_, hnd⟩
  · have hguard : (!(s.note_exists (canonPair a b).1) ||
        !(s.note_exists (canonPair a b).2)) = false := by
      rw [he1, he2]; rfl
    simp only [Store.upsert_link_raw, normalize_edge_of_ne hab, bind, Except.bind,
      hguard, Bool.false_eq_true, if_false, hins, pure, Except.pure]
  · intro q
    rw [hlinks q]
    constructor
    · rintro (h | ⟨rfl, -⟩)
      · exact Or.inl h
      · exact Or.inr rfl
    · rintro (h | rfl)
      · exact Or.inl h
      · exact Or.inr ⟨rfl, hc12⟩

theorem upsert_link_raw_missing {s : Store} {a b : Int}
    (h : s.note_exists a = false ∨ s.note_exists b = false) :
    (s.upsert_link_raw a b).isOk = false := by
  by_cases hab : a = b
  · subst hab
    simp [Store.upsert_link_raw, normalize_edge_self, bind, Except.bind,
      Except.isOk, Except.toBool]
  · have hguard : (!(s.note_exists (canonPair a b).1) ||
        !(s.note_exists (canonPair a b).2)) = true := by
      rcases canonPair_fst_or a b with ⟨h1, h2⟩ | ⟨h1, h2⟩ <;>
        rcases h with h | h <;> simp [h1, h2, h]
    simp [Store.upsert_link_raw, normalize_edge_of_ne hab, bind, Except.bind,
      hguard, throw, throwThe, MonadExcept.throw, Except.isOk, Except.toBool]

theorem upsert_link_raw_ok_inv {s : Store} {a b : Int} {e : Int × Int}
    {s' : Store} (h : s.upsert_link_raw a b = .ok (e, s')) :
    a ≠ b ∧ e = canonPair a b ∧
    s.note_exists a = true ∧ s.note_exists b = true ∧
    s'.notes = s.notes ∧ s'.next_id = s.next_id ∧
    (∀ q, q ∈ s'.links ↔ q ∈ s.links ∨ q = e) := by
  have hab : a ≠ b := by
    rintro rfl
    simp [Store.upsert_link_raw, normalize_edge_self, bind, Except.bind] at h
  have ha : s.note_exists a = true := by
    by_contra hcon
    have := @upsert_link_raw_missing s a b (Or.inl (Bool.not_eq_true _ ▸ hcon))
    rw [h] at this
    simp [Except.isOk, Except.toBool] at this
  have hb : s.note_exists b = true := by
    by_contra hcon
    have := @upsert_link_raw_missing s a b (Or.inr (Bool.not_eq_true _ ▸ hcon))
    rw [h] at this
    simp [Except.isOk, Except.toBool] at this
  obtain ⟨s1, hu, hnotes, hnext, hlinks, -⟩ := upsert_link_raw_of_exists hab ha hb
  rw [hu] at h
  injection h with h1
  obtain ⟨rfl, rfl⟩ : e = canonPair a b ∧ s' = s1 := by
    constructor
    · exact (congrArg Prod.fst h1).symm
    · exact (congrArg Prod.snd h1).symm
  exact ⟨hab, rfl, ha, hb, hnotes, hnext, hlinks⟩

/-! ## Claim theorems -/

/-- Claim C9: for all ids a ≠ b, `normalize_edge` is symmetric and returns
(min(a,b), max(a,b)); for every id a, `normalize_edge a a` fails with the
self-link validation error. -/
theorem claim_C9_normalize (a b : Int) :
    (a ≠ b →
      normalize_edge a b = normalize_edge b a ∧
        normalize_edge a b = .ok (min a b, max a b)) ∧
    normalize_edge a a = .error "a note cannot link to itself" := by
  refine ⟨fun h => ?_, normalize_edge_self a⟩
  rw [normalize_edge_of_ne h, normalize_edge_of_ne (Ne.symm h),
    canonPair_eq_minmax, canonPair_eq_minmax, min_comm b a, max_comm b a]
  exact ⟨rfl, rfl⟩

/-- Witness for C9 at a = 3, b = 5 (and the self-loop at 4). -/
theorem claim_C9_normalize_witness :
    (normalize_edge 3 5 = normalize_edge 5 3 ∧
      normalize_edge 3 5 = .ok (min 3 5, max 3 5)) ∧
    normalize_edge 4 4 = .error "a note cannot link to itself" :=
  ⟨(claim_C9_normalize 3 5).1 (by decide), (claim_C9_normalize 4 4).2⟩

/-- Claim C10: `delete_link(a, a)` does not return `Ok(false)`; it fails with
the self-link validation error from `normalize_edge` (which runs before any
DELETE), and the store is left completely unchanged. -/
theorem claim_C10_delete_self_link (s : Store) (a : Int) :
    s.delete_link a a = (.error "a note cannot link to itself", s) := by
  simp [Store.delete_link, normalize_edge_self]

/-- Claim C2, counterexample to the claim as stated: the claim says a
position-only update "does not refresh the note's last-modified timestamp",
but the `notes_touch_updated_at` trigger lists x and y among its columns, so
the timestamp of note 1 (previously 5) becomes the update time 9. -/
theorem claim_C2_cx :
    ((exS1.update_note_position 9 1 3 4).2.notes.map Note.updated_at = [9]) ∧
    ¬((exS1.update_note_position 9 1 3 4).2.notes.map Note.updated_at = [5]) := by
  decide

/-- Claim C2 as amended: for every existing note id, the position-only
update changes only the x, y (and, via the trigger, updated_at) fields of
that note; every other note, the link table and the id counter are
unchanged, and the untouched scalar fields are preserved. -/
theorem claim_C2_position_update (s : Store) (now : Nat) (id : Int) (x y : ℝ)
    (hex : s.note_exists id = true) :
    (s.update_note_position now id x y).2.links = s.links ∧
    (s.update_note_position now id x y).2.next_id = s.next_id ∧
    (∀ n ∈ s.notes, n.id ≠ id → n ∈ (s.update_note_position now id x y).2.notes) ∧
    (∃ old, s.get_note id = some old ∧
      (s.update_note_position now id x y).1 =
        .ok ⟨old.id, old.title, old.subtitle, old.content, x, y, now⟩ ∧
      (s.update_note_position now id x y).2.get_note id =
        some ⟨old.id, old.title, old.subtitle, old.content, x, y, now⟩) := by
  obtain ⟨old, hold⟩ := note_exists_find? hex
  have hpo : (old.id == id) = true := by simpa using List.find?_some hold
  have hne : (!(s.note_exists id)) = false := by rw [hex]; rfl
  simp only [Store.update_note_position, hne, Bool.false_eq_true, if_false]
  have hf : ∀ n : Note,
      ((fun n : Note =>
        if n.id == id then
          (⟨n.id, n.title, n.subtitle, n.content, x, y, now⟩ : Note)
        else n) n).id = n.id := by
    intro n
    by_cases h : (n.id == id) = true <;> simp [h]
  have hget :
      (s.notes.map (fun n : Note =>
          if n.id == id then
            (⟨n.id, n.title, n.subtitle, n.content, x, y, now⟩ : Note)
          else n)).find? (fun n => n.id == id) =
        some ⟨old.id, old.title, old.subtitle, old.content, x, y, now⟩ := by
    rw [find?_id_map _ _ hf, hold, Option.map_some']
    simp [hpo]
  simp only [Store.get_note]
  rw [hget]
  refine ⟨rfl, rfl, ?_, old, hold, rfl, hget⟩
  intro n hn hnid
  have heq : (fun n : Note =>
      if n.id == id then
        (⟨n.id, n.title, n.subtitle, n.content, x, y, now⟩ : Note)
      else n) n = n := by
    simp [hnid]
  exact heq ▸ List.mem_map_of_mem _ hn

/-- Witness for the amended C2 at the one-note store. -/
theorem claim_C2_position_update_witness :
    (exS1.update_note_position 9 1 3 4).2.links = [] ∧
    (exS1.update_note_position 9 1 3 4).2.next_id = 2 := by
  have h := claim_C2_position_update exS1 9 1 3 4 (by decide)
  exact ⟨h.1, h.2.1⟩

theorem count_eq_one_of_nodup_mem {α : Type} [BEq α] [LawfulBEq α]
    {l : List α} {a : α} (hnd : l.Nodup) (ha : a ∈ l) : l.count a = 1 := by
  induction l with
  | nil => cases ha
  | cons x xs ih =>
    rw [List.count_cons]
    rcases List.mem_cons.mp ha with rfl | hm
    · rw [List.count_eq_zero_of_not_mem (List.nodup_cons.mp hnd).1]
      simp
    · have hxa : a ≠ x := by
        intro h
        exact (List.nodup_cons.mp hnd).1 (h ▸ hm)
      rw [ih (List.nodup_cons.mp hnd).2 hm]
      simp [hxa, Ne.symm hxa]

theorem create_links_loop_state (s : Store) (note : Note) (id : Int)
    (l : List Int) :
    (s.create_links_loop note id l).2.notes = s.notes ∧
    (s.create_links_loop note id l).2.next_id = s.next_id := by
  induction l generalizing s with
  | nil => exact ⟨rfl, rfl⟩
  | cons r rest ih =>
    by_cases hr : (r == id) = true
    · simpa [Store.create_links_loop, hr] using ih s
    · cases hu : s.upsert_link_raw id r with
      | error e => simp [Store.create_links_loop, hr, hu]
      | ok p =>
        obtain ⟨e, s1⟩ := p
        obtain ⟨-, -, -, -, hnotes, hnext, -⟩ := upsert_link_raw_ok_inv hu
        have := ih s1
        simp only [Store.create_links_loop, hr, Bool.false_eq_true, if_false, hu]
        exact ⟨this.1.trans hnotes, this.2.trans hnext⟩

theorem create_links_loop_fails {s : Store} {note : Note} {id : Int}
    {l : List Int} (h : ∃ r, r ∈ l ∧ r ≠ id ∧ s.note_exists r = false) :
    ((s.create_links_loop note id l).1).isOk = false := by
  induction l generalizing s with
  | nil =>
    obtain ⟨r, hr, -⟩ := h
    exact absurd hr (List.not_mem_nil r)
  | cons r0 rest ih =>
    obtain ⟨r, hr, hrne, hrex⟩ := h
    by_cases h0 : (r0 == id) = true
    · have hr0 : r0 = id := by simpa using h0
      have hrrest : r ∈ rest := by
        rcases List.mem_cons.mp hr with rfl | hm
        · exact absurd hr0 hrne
        · exact hm
      simpa [Store.create_links_loop, h0] using ih ⟨r, hrrest, hrne, hrex⟩
    · cases hu : s.upsert_link_raw id r0 with
      | error e =>
        simp [Store.create_links_loop, h0, hu, Except.isOk, Except.toBool]
      | ok p =>
        obtain ⟨e, s1⟩ := p
        obtain ⟨-, -, -, hex0, hnotes, -, -⟩ := upsert_link_raw_ok_inv hu
        have hrrest : r ∈ rest := by
          rcases List.mem_cons.mp hr with rfl | hm
          · rw [hrex] at hex0
            exact absurd hex0 (by simp)
          · exact hm
        have hrex1 : s1.note_exists r = false := by
          rw [note_exists_eq_of_notes_eq hnotes]
          exact hrex
        simpa [Store.create_links_loop, h0, hu] using ih ⟨r, hrrest, hrne, hrex1⟩

/-- Claim C1, counterexample to the claim as stated: `create_note` runs
without a transaction, so when the related id 9 does not exist the call
fails but the freshly inserted note row (id 2) persists — relational state
is observably partially mutated, not left unchanged. -/
theorem claim_C1_cx :
    ((exS1.create_note 7 ⟨"b", none, none, some 0, some 0, some [9]⟩).1).isOk
        = false ∧
    (exS1.create_note 7 ⟨"b", none, none, some 0, some 0,
        some [9]⟩).2.notes.map Note.id = [1, 2] := by
  decide

/-- Claim C1 as amended: when the title is valid and some related id is
neither the new note's id nor an existing note, `create_note` returns an
error, yet the new note row persists (appended with id `next_id`); the
mutation is not rolled back. -/
theorem claim_C1_create (s : Store) (now : Nat) (p : CreateNoteRequest)
    (ht : (strTrim p.title).data.isEmpty = false)
    (hrel : ∃ rel, p.related_ids = some rel ∧
      ∃ r, r ∈ rel ∧ r ≠ s.next_id ∧ s.note_exists r = false) :
    ((s.create_note now p).1).isOk = false ∧
    (s.create_note now p).2.notes.map Note.id =
      s.notes.map Note.id ++ [s.next_id] := by
  obtain ⟨rel, hpr, r, hrm, hrne, hrex⟩ := hrel
  simp only [Store.create_note, ht, Bool.false_eq_true, if_false, hpr]
  have hbad : ∃ r', r' ∈ rel ∧ r' ≠ s.next_id ∧
      (Store.mk (s.notes ++
          [⟨s.next_id, strTrim p.title, p.subtitle.getD "", p.content.getD "",
            (match p.x, p.y with
              | some x, some y => (x, y)
              | _, _ => default_spawn_position s.notes.length).1,
            (match p.x, p.y with
              | some x, some y => (x, y)
              | _, _ => default_spawn_position s.notes.length).2, now⟩])
        s.links (s.next_id + 1)).note_exists r' = false := by
    refine ⟨r, hrm, hrne, ?_⟩
    simp [Store.note_exists, List.any_append, hrne.symm]
    simpa [Store.note_exists, List.any_eq_true] using hrex
  refine ⟨create_links_loop_fails hbad, ?_⟩
  have hstate := create_links_loop_state
    (Store.mk (s.notes ++
        [⟨s.next_id, strTrim p.title, p.subtitle.getD "", p.content.getD "",
          (match p.x, p.y with
            | some x, some y => (x, y)
            | _, _ => default_spawn_position s.notes.length).1,
          (match p.x, p.y with
            | some x, some y => (x, y)
            | _, _ => default_spawn_position s.notes.length).2, now⟩])
      s.links (s.next_id + 1))
    ⟨s.next_id, strTrim p.title, p.subtitle.getD "", p.content.getD "",
      (match p.x, p.y with
        | some x, some y => (x, y)
        | _, _ => default_spawn_position s.notes.length).1,
      (match p.x, p.y with
        | some x, some y => (x, y)
        | _, _ => default_spawn_position s.notes.length).2, now⟩
    s.next_id rel
  rw [hstate.1]
  simp [List.map_append]

/-- Witness for the amended C1: a one-note store, a fresh note with related
id 9 which does not exist. -/
theorem claim_C1_create_witness :
    ((exS1.create_note 8 ⟨"c", none, none, some 1, some 1, some [9]⟩).1).isOk
        = false ∧
    (exS1.create_note 8 ⟨"c", none, none, some 1, some 1,
        some [9]⟩).2.notes.map Note.id = [1, 2] := by
  have h := claim_C1_create exS1 8 ⟨"c", none, none, some 1, some 1, some [9]⟩
    (by decide) ⟨[9], rfl, 9, by decide, by decide, by decide⟩
  exact ⟨h.1, by simpa using h.2⟩

/-- Claim C7, counterexample to the claim as stated: note 1 exists in
`exS2`, so both endpoints of `create_link 1 1` exist and the claim requires
a successful idempotent insert, but `normalize_edge` rejects the self-link
first. -/
theorem claim_C7_cx : (exS2.create_link 1 1).isOk = false := by
  decide

/-- Claim C7 as amended: for a ≠ b, `create_link` fails when either endpoint
is missing; when both exist it succeeds with the canonical (min, max) edge,
a second call with the endpoints swapped also succeeds returning the same
edge, and exactly one copy of the canonical row exists afterwards. -/
theorem claim_C7_link (s : Store) (a b : Int) (hab : a ≠ b)
    (hnd : s.links.Nodup) :
    (s.note_exists a = false ∨ s.note_exists b = false →
      (s.create_link a b).isOk = false) ∧
    (s.note_exists a = true → s.note_exists b = true →
      ∃ s1 s2, s.create_link a b = .ok ((min a b, max a b), s1) ∧
        s1.create_link b a = .ok ((min a b, max a b), s2) ∧
        s2.links.count (min a b, max a b) = 1 ∧
        (∀ q, q ∈ s2.links ↔ q ∈ s.links ∨ q = (min a b, max a b))) := by
  constructor
  · exact fun h => upsert_link_raw_missing h
  · intro ha hb
    obtain ⟨s1, hu1, hnotes1, -, hl1, hnd1⟩ := upsert_link_raw_of_exists hab ha hb
    have ha1 : s1.note_exists b = true := by
      rw [note_exists_eq_of_notes_eq hnotes1]; exact hb
    have hb1 : s1.note_exists a = true := by
      rw [note_exists_eq_of_notes_eq hnotes1]; exact ha
    obtain ⟨s2, hu2, -, -, hl2, hnd2⟩ :=
      upsert_link_raw_of_exists (Ne.symm hab) ha1 hb1
    have hmem1 : canonPair a b ∈ s1.links := (hl1 _).mpr (Or.inr rfl)
    have hcanon : canonPair b a = canonPair a b := canonPair_comm b a
    refine ⟨s1, s2, ?_, ?_, ?_, ?_⟩
    · rw [← canonPair_eq_minmax]
      exact hu1
    · rw [← canonPair_eq_minmax, ← hcanon]
      exact hu2
    · rw [← canonPair_eq_minmax]
      refine count_eq_one_of_nodup_mem (hnd2 (hnd1 hnd)) ?_
      exact (hl2 _).mpr (Or.inl hmem1)
    · intro q
      rw [← canonPair_eq_minmax, hl2 q, hl1 q, hcanon]
      tauto

/-- Witness for the amended C7 on the two-note store, endpoints given in
descending order (2, 1). -/
theorem claim_C7_link_witness :
    ∃ s1 s2, exS2.create_link 2 1 = .ok ((min 2 1, max 2 1), s1) ∧
      s1.create_link 1 2 = .ok ((min 2 1, max 2 1), s2) ∧
      s2.links.count (min 2 1, max 2 1) = 1 ∧
      (∀ q, q ∈ s2.links ↔ q ∈ exS2.links ∨ q = (min 2 1, max 2 1)) := by
  exact (claim_C7_link exS2 2 1 (by decide) (by decide)).2 (by decide) (by decide)

theorem desired_edges_ok (s : Store) (nid : Int) (rel : List Int) :
    ∃ ds, s.desired_edges nid rel = .ok ds ∧ ds.Nodup ∧
      (∀ e, e ∈ ds ↔ ∃ r, r ∈ rel ∧ r ≠ nid ∧ s.note_exists r = true ∧
        e = canonPair nid r) := by
  induction rel with
  | nil => exact ⟨[], rfl, List.nodup_nil, by simp⟩
  | cons r0 rest ih =>
    obtain ⟨ds, hds, hnd, hiff⟩ := ih
    by_cases h0 : (r0 == nid) = true
    · have hr0 : r0 = nid := by simpa using h0
      refine ⟨ds, by simp [Store.desired_edges, h0, hds], hnd, fun e => ?_⟩
      rw [hiff e]
      constructor
      · rintro ⟨r, hr, hp⟩
        exact ⟨r, List.mem_cons_of_mem _ hr, hp⟩
      · rintro ⟨r, hr, hne, hexr, he⟩
        rcases List.mem_cons.mp hr with rfl | hm
        · exact absurd hr0 hne
        · exact ⟨r, hm, hne, hexr, he⟩
    · have hne0 : r0 ≠ nid := by simpa using h0
      by_cases hex0 : s.note_exists r0 = true
      · have hnid0 : nid ≠ r0 := Ne.symm hne0
        refine ⟨if canonPair nid r0 ∈ ds then ds else canonPair nid r0 :: ds,
          ?_, ?_, fun e => ?_⟩
        · simp [Store.desired_edges, h0, hex0, normalize_edge_of_ne hnid0,
            hds, bind, Except.bind, pure, Except.pure]
        · by_cases hmem : canonPair nid r0 ∈ ds
          · simpa [hmem] using hnd
          · simpa [hmem] using List.nodup_cons.mpr ⟨hmem, hnd⟩
        · by_cases hmem : canonPair nid r0 ∈ ds
          · rw [if_pos hmem, hiff e]
            constructor
            · rintro ⟨r, hr, hp⟩
              exact ⟨r, List.mem_cons_of_mem _ hr, hp⟩
            · rintro ⟨r, hr, hner, hexr, he⟩
              rcases List.mem_cons.mp hr with rfl | hm
              · subst he
                exact (hiff _).mp hmem
              · exact ⟨r, hm, hner, hexr, he⟩
          · rw [if_neg hmem]
            constructor
            · intro hmem2
              rcases List.mem_cons.mp hmem2 with rfl | hm
              · exact ⟨r0, List.mem_cons_self _ _, hne0, hex0, rfl⟩
              · obtain ⟨r, hr, hp⟩ := (hiff e).mp hm
                exact ⟨r, List.mem_cons_of_mem _ hr, hp⟩
            · rintro ⟨r, hr, hner, hexr, he⟩
              rcases List.mem_cons.mp hr with rfl | hm
              · subst he
                exact List.mem_cons_self _ _
              · exact List.mem_cons_of_mem _ ((hiff e).mpr ⟨r, hm, hner, hexr, he⟩)
      · have hex0' : s.note_exists r0 = false := by
          simpa using hex0
        refine ⟨ds, ?_, hnd, fun e => ?_⟩
        · simp only [Store.desired_edges, h0, Bool.false_eq_true, if_false, hex0']
          exact hds
        · rw [hiff e]
          constructor
          · rintro ⟨r, hr, hp⟩
            exact ⟨r, List.mem_cons_of_mem _ hr, hp⟩
          · rintro ⟨r, hr, hner, hexr, he⟩
            rcases List.mem_cons.mp hr with rfl | hm
            · rw [hexr] at hex0'
              cases hex0'
            · exact ⟨r, hm, hner, hexr, he⟩

theorem insert_edges_loop_ok (s : Store) (l : List (Int × Int))
    (h : ∀ e ∈ l, s.note_exists e.1 = true ∧ s.note_exists e.2 = true ∧
      e.1 ≠ e.2) :
    ∃ s1, s.insert_edges_loop l = (.ok (), s1) ∧ s1.notes = s.notes ∧
      s1.next_id = s.next_id ∧
      (∀ q, q ∈ s1.links ↔ q ∈ s.links ∨ q ∈ l) ∧
      (s.links.Nodup → s1.links.Nodup) := by
  induction l generalizing s with
  | nil => exact ⟨s, rfl, rfl, rfl, by simp, fun h => h⟩
  | cons e0 rest ih =>
    obtain ⟨he1, he2, hne⟩ := h e0 (List.mem_cons_self _ _)
    obtain ⟨s1, hins, hnotes1, hnext1, hlinks1, hnd1⟩ :=
      insert_link_sql_of_exists he1 he2
    have hrest : ∀ e ∈ rest, s1.note_exists e.1 = true ∧
        s1.note_exists e.2 = true ∧ e.1 ≠ e.2 := by
      intro e he
      obtain ⟨a1, a2, a3⟩ := h e (List.mem_cons_of_mem _ he)
      rw [note_exists_eq_of_notes_eq hnotes1, note_exists_eq_of_notes_eq hnotes1]
      exact ⟨a1, a2, a3⟩
    obtain ⟨s2, hloop, hnotes2, hnext2, hlinks2, hnd2⟩ := ih s1 hrest
    refine ⟨s2, ?_, hnotes2.trans hnotes1, hnext2.trans hnext1, ?_,
      fun hnd => hnd2 (hnd1 hnd)⟩
    · simp [Store.insert_edges_loop, hins, hloop]
    · intro q
      rw [hlinks2 q, hlinks1 q]
      simp only [Prod.mk.eta, List.mem_cons]
      constructor
      · rintro ((hq | ⟨rfl, -⟩) | hq)
        · exact Or.inl hq
        · exact Or.inr (Or.inl rfl)
        · exact Or.inr (Or.inr hq)
      · rintro (hq | rfl | hq)
        · exact Or.inl (Or.inl hq)
        · exact Or.inl (Or.inr ⟨rfl, hne⟩)
        · exact Or.inr hq

theorem sync_related_links_ok (s : Store) (nid : Int) (rel : List Int)
    (hex : s.note_exists nid = true) :
    ∃ s1, s.sync_related_links nid rel = (.ok (), s1) ∧
      s1.notes = s.notes ∧ s1.next_id = s.next_id ∧
      (s.links.Nodup → s1.links.Nodup) ∧
      (∀ q, q ∈ s1.links ↔
        ((q ∈ s.links ∧ touches nid q = false) ∨
          (∃ r, r ∈ rel ∧ r ≠ nid ∧ s.note_exists r = true ∧
            q = canonPair nid r))) := by
  obtain ⟨ds, hds, hdsnd, hdsiff⟩ := desired_edges_ok s nid rel
  have hdsel : ∀ e ∈ ds, s.note_exists e.1 = true ∧ s.note_exists e.2 = true ∧
      e.1 ≠ e.2 ∧ touches nid e = true := by
    intro e he
    obtain ⟨r, -, hrne, hrex, rfl⟩ := (hdsiff e).mp he
    have hnr : nid ≠ r := fun h => hrne h.symm
    rcases canonPair_fst_or nid r with ⟨h1, h2⟩ | ⟨h1, h2⟩ <;>
      rw [touches, h1, h2] <;> simp [hex, hrex, hnr, Ne.symm hnr]
  obtain ⟨s1, hloop, hnotes1, hnext1, hlinks1, hnd1⟩ :=
    insert_edges_loop_ok
      ⟨s.notes, s.links.filter (fun e => !(touches nid e) ||
          decide (e ∈ ds)), s.next_id⟩
      (ds.filter (fun e => !(decide (e ∈ s.links.filter (touches nid)))))
      (by
        intro e he
        have hin : e ∈ ds := List.mem_of_mem_filter he
        obtain ⟨a1, a2, a3, -⟩ := hdsel e hin
        exact ⟨by simpa [Store.note_exists] using a1,
          by simpa [Store.note_exists] using a2, a3⟩)
  refine ⟨s1, ?_, by rw [hnotes1], by rw [hnext1], ?_, fun q => ?_⟩
  · simp only [Store.sync_related_links, hds]
    exact hloop
  · intro hnd
    exact hnd1 (List.Nodup.filter _ hnd)
  · rw [hlinks1 q]
    have hfilter1 : q ∈ List.filter (fun e => !(touches nid e) ||
        decide (e ∈ ds)) s.links ↔
        q ∈ s.links ∧ (touches nid q = false ∨ q ∈ ds) := by
      rw [List.mem_filter]
      constructor
      · rintro ⟨h1, h2⟩
        refine ⟨h1, ?_⟩
        rcases Bool.or_eq_true_iff.mp h2 with h3 | h3
        · exact Or.inl (by simpa using h3)
        · exact Or.inr (of_decide_eq_true h3)
      · rintro ⟨h1, h2 | h2⟩
        · exact ⟨h1, by simp [h2]⟩
        · exact ⟨h1, by simp [h2]⟩
    have hfilter2 : q ∈ List.filter (fun e =>
        !(decide (e ∈ s.links.filter (touches nid)))) ds ↔
        q ∈ ds ∧ ¬(q ∈ s.links ∧ touches nid q = true) := by
      rw [List.mem_filter]
      constructor
      · rintro ⟨h1, h2⟩
        refine ⟨h1, fun hcon => ?_⟩
        have : q ∈ s.links.filter (touches nid) :=
          List.mem_filter.mpr ⟨hcon.1, hcon.2⟩
        simp [this] at h2
      · rintro ⟨h1, h2⟩
        refine ⟨h1, ?_⟩
        have : q ∉ s.links.filter (touches nid) := fun hcon => by
          obtain ⟨hm, ht⟩ := List.mem_filter.mp hcon
          exact h2 ⟨hm, ht⟩
        simp [this]
    rw [hfilter1, hfilter2]
    have hDtouch : q ∈ ds → touches nid q = true := fun hq => (hdsel q hq).2.2.2
    rw [← hdsiff q]
    constructor
    · rintro (⟨h1, h2 | h2⟩ | ⟨h1, -⟩)
      · exact Or.inl ⟨h1, h2⟩
      · exact Or.inr h2
      · exact Or.inr h1
    · rintro (⟨h1, h2⟩ | h1)
      · exact Or.inl ⟨h1, Or.inl h2⟩
      · by_cases hmem : q ∈ s.links
        · exact Or.inl ⟨hmem, Or.inr h1⟩
        · exact Or.inr ⟨h1, fun hcon => hmem hcon.1⟩

/-- Claim C3, counterexample to the claim as stated: for the NON-existent
note id 2 (the claim quantifies over every note id), syncing with related
list [1] must, per the claim, leave edge set {(1,2)} touching note 2; but
the INSERT violates the links FOREIGN KEY (note 2 missing), the call errors
and no edge exists. -/
theorem claim_C3_cx :
    (1, 2) ∉ (exS1.sync_related_links 2 [1]).2.links ∧
    ((exS1.sync_related_links 2 [1]).1).isOk = false := by
  decide

/-- Claim C3 as amended: for every EXISTING note id, `sync_related_links`
succeeds, after the call the edges touching the note are exactly the
canonical pairs with the existing, distinct related ids; edges not touching
the note are untouched; the operation is idempotent (a second identical call
succeeds and leaves the edge set unchanged) and order-independent (any
related list with the same members yields the same edge set). -/
theorem claim_C3_sync (s : Store) (nid : Int) (rel : List Int)
    (hex : s.note_exists nid = true) :
    ∃ s1, s.sync_related_links nid rel = (.ok (), s1) ∧
      (∀ e, (e ∈ s1.links ∧ touches nid e = true) ↔
        (∃ r, r ∈ rel ∧ r ≠ nid ∧ s.note_exists r = true ∧
          e = canonPair nid r)) ∧
      (∀ e, touches nid e = false → (e ∈ s1.links ↔ e ∈ s.links)) ∧
      ((s1.sync_related_links nid rel).1 = .ok () ∧
        (∀ e, e ∈ (s1.sync_related_links nid rel).2.links ↔ e ∈ s1.links)) ∧
      (∀ rel', (∀ r, r ∈ rel' ↔ r ∈ rel) →
        (∀ e, e ∈ (s.sync_related_links nid rel').2.links ↔ e ∈ s1.links)) := by
  have htouchD : ∀ e, (∃ r, r ∈ rel ∧ r ≠ nid ∧ s.note_exists r = true ∧
      e = canonPair nid r) → touches nid e = true := by
    rintro e ⟨r, -, hrne, -, rfl⟩
    rcases canonPair_fst_or nid r with ⟨h1, h2⟩ | ⟨h1, h2⟩ <;>
      rw [touches, h1, h2] <;> simp
  obtain ⟨s1, hsync, hnotes1, -, -, hlinks1⟩ := sync_related_links_ok s nid rel hex
  have hiff1 : ∀ e, (e ∈ s1.links ∧ touches nid e = true) ↔
      (∃ r, r ∈ rel ∧ r ≠ nid ∧ s.note_exists r = true ∧
        e = canonPair nid r) := by
    intro e
    rw [hlinks1 e]
    constructor
    · rintro ⟨⟨-, hf⟩ | hD, ht⟩
      · rw [ht] at hf
        cases hf
      · exact hD
    · intro hD
      exact ⟨Or.inr hD, htouchD e hD⟩
  have hex1 : s1.note_exists nid = true := by
    rw [note_exists_eq_of_notes_eq hnotes1]
    exact hex
  have hrelcong : ∀ r, s1.note_exists r = s.note_exists r :=
    fun r => note_exists_eq_of_notes_eq hnotes1 r
  obtain ⟨s2, hsync2, -, -, -, hlinks2⟩ := sync_related_links_ok s1 nid rel hex1
  refine ⟨s1, hsync, hiff1, ?_, ?_, ?_⟩
  · intro e ht
    rw [hlinks1 e]
    constructor
    · rintro (⟨h1, -⟩ | hD)
      · exact h1
      · rw [htouchD e hD] at ht
        cases ht
    · intro h1
      exact Or.inl ⟨h1, ht⟩
  · constructor
    · rw [hsync2]
    · intro e
      rw [hsync2]
      show e ∈ s2.links ↔ e ∈ s1.links
      rw [hlinks2 e]
      constructor
      · rintro (⟨h1, -⟩ | hD)
        · exact h1
        · refine ((hiff1 e).mpr ?_).1
          obtain ⟨r, hr, hrne, hrex, he⟩ := hD
          rw [hrelcong r] at hrex
          exact ⟨r, hr, hrne, hrex, he⟩
      · intro hm
        by_cases ht : touches nid e = true
        · obtain ⟨r, hr, hrne, hrex, he⟩ := (hiff1 e).mp ⟨hm, ht⟩
          refine Or.inr ⟨r, hr, hrne, ?_, he⟩
          rw [hrelcong r]
          exact hrex
        · exact Or.inl ⟨hm, by simpa using ht⟩
  · intro rel' hrel' e
    obtain ⟨s3, hsync3, -, -, -, hlinks3⟩ :=
      sync_related_links_ok s nid rel' hex
    rw [hsync3]
    show e ∈ s3.links ↔ e ∈ s1.links
    rw [hlinks3 e, hlinks1 e]
    constructor
    · rintro (h1 | ⟨r, hr, hp⟩)
      · exact Or.inl h1
      · exact Or.inr ⟨r, (hrel' r).mp hr, hp⟩
    · rintro (h1 | ⟨r, hr, hp⟩)
      · exact Or.inl h1
      · exact Or.inr ⟨r, (hrel' r).mpr hr, hp⟩

/-- Witness for the amended C3: syncing existing note 1 with related list
[2, 2] in the two-note store succeeds. -/
theorem claim_C3_sync_witness :
    ∃ s1, exS2.sync_related_links 1 [2, 2] = (.ok (), s1) := by
  obtain ⟨s1, h1, -⟩ := claim_C3_sync exS2 1 [2, 2] (by decide)
  exact ⟨s1, h1⟩

/-- Claim C8, counterexample to the claim as stated: `update_note` stores
the TRIMMED title, so for the payload title " b " the stored title "b" is
not the exact supplied value. -/
theorem claim_C8_cx :
    ((exS1.update_note 9 1 ⟨" b ", "s", "c", 1, 2, none⟩).2.notes.map
        Note.title = ["b"]) ∧
    (" b " : String) ≠ "b" := by
  decide

/-- Claim C8 as amended: for an existing id and a payload with non-empty
trimmed title, `update_note` succeeds and unconditionally replaces all
scalar fields: the stored subtitle, content, x and y equal the payload
values exactly, and the stored title equals the TRIMMED payload title (the
timestamp is refreshed by the trigger). -/
theorem claim_C8_update (s : Store) (now : Nat) (id : Int)
    (p : UpdateNoteRequest) (hex : s.note_exists id = true)
    (ht : (strTrim p.title).data.isEmpty = false) :
    ∃ n, (s.update_note now id p).1 = .ok n ∧
      (s.update_note now id p).2.get_note id = some n ∧
      n.title = strTrim p.title ∧ n.subtitle = p.subtitle ∧
      n.content = p.content ∧ n.x = p.x ∧ n.y = p.y ∧
      n.updated_at = now := by
  obtain ⟨old, hold⟩ := note_exists_find? hex
  have hpo : (old.id == id) = true := by simpa using List.find?_some hold
  have hne : (!(s.note_exists id)) = false := by rw [hex]; rfl
  have hf : ∀ n : Note,
      ((fun n : Note =>
        if n.id == id then
          (⟨n.id, strTrim p.title, p.subtitle, p.content, p.x, p.y, now⟩ : Note)
        else n) n).id = n.id := by
    intro n
    by_cases h : (n.id == id) = true <;> simp [h]
  have hget :
      (s.notes.map (fun n : Note =>
          if n.id == id then
            (⟨n.id, strTrim p.title, p.subtitle, p.content, p.x, p.y, now⟩ : Note)
          else n)).find? (fun n => n.id == id) =
        some ⟨old.id, strTrim p.title, p.subtitle, p.content, p.x, p.y, now⟩ := by
    rw [find?_id_map _ _ hf, hold, Option.map_some']
    simp [hpo]
  simp only [Store.update_note, ht, Bool.false_eq_true, if_false, hne]
  cases hrel : p.related_ids with
  | none =>
    simp only [Store.get_note]
    rw [hget]
    exact ⟨_, rfl, hget, rfl, rfl, rfl, rfl, rfl, rfl⟩
  | some rel =>
    have hex1 : (Store.mk (s.notes.map (fun n : Note =>
        if n.id == id then
          (⟨n.id, strTrim p.title, p.subtitle, p.content, p.x, p.y, now⟩ : Note)
        else n)) s.links s.next_id).note_exists id = true := by
      rw [Store.note_exists] at hex ⊢
      rw [List.any_map]
      have hcomp : ((fun n : Note => n.id == id) ∘ (fun n : Note =>
          if n.id == id then
            (⟨n.id, strTrim p.title, p.subtitle, p.content, p.x, p.y, now⟩ : Note)
          else n)) = fun n : Note => n.id == id := by
        funext n
        simp only [Function.comp_apply]
        rw [hf n]
      rw [hcomp]
      exact hex
    obtain ⟨s2, hsync, hnotes2, -, -, -⟩ :=
      sync_related_links_ok _ id rel hex1
    have hget2 : s2.get_note id =
        some ⟨old.id, strTrim p.title, p.subtitle, p.content, p.x, p.y, now⟩ := by
      rw [Store.get_note, hnotes2]
      exact hget
    simp only [hsync, hget2]
    exact ⟨_, rfl, rfl, rfl, rfl, rfl, rfl, rfl, rfl⟩

/-- Witness for the amended C8 at the one-note store. -/
theorem claim_C8_update_witness :
    ∃ n, (exS1.update_note 9 1 ⟨"t2", "s2", "c2", 7, 8, none⟩).1 = .ok n ∧
      (exS1.update_note 9 1 ⟨"t2", "s2", "c2", 7, 8, none⟩).2.get_note 1 =
        some n ∧
      n.title = strTrim "t2" ∧ n.subtitle = "s2" ∧ n.content = "c2" ∧
      n.x = 7 ∧ n.y = 8 ∧ n.updated_at = 9 :=
  claim_C8_update exS1 9 1 ⟨"t2", "s2", "c2", 7, 8, none⟩ (by decide) (by decide)

theorem default_spawn_eq_spec (c : Nat) :
    default_spawn_position c = spec_default_spawn c := rfl

theorem create_note_notes (s : Store) (now : Nat) (p : CreateNoteRequest)
    (ht : (strTrim p.title).data.isEmpty = false) :
    (s.create_note now p).2.notes = s.notes ++
      [⟨s.next_id, strTrim p.title, p.subtitle.getD "", p.content.getD "",
        (match p.x, p.y with
          | some x, some y => (x, y)
          | _, _ => default_spawn_position s.notes.length).1,
        (match p.x, p.y with
          | some x, some y => (x, y)
          | _, _ => default_spawn_position s.notes.length).2, now⟩] := by
  simp only [Store.create_note, ht, Bool.false_eq_true, if_false]
  cases hrel : p.related_ids with
  | none => rfl
  | some rel => exact (create_links_loop_state _ _ _ rel).1

/-- Claim C5: when a createNote call does not fully supply a position, the
inserted note's position is given by the spec's default-spawn algorithm at
count = number of pre-existing notes; for counts 0..7 the radius is 140
(ring = 1), and count 0 yields (140, 0). -/
theorem claim_C5_default_spawn (s : Store) (now : Nat) (p : CreateNoteRequest)
    (ht : (strTrim p.title).data.isEmpty = false)
    (hpos : p.x = none ∨ p.y = none) :
    (∃ n, (s.create_note now p).2.notes = s.notes ++ [n] ∧
      (n.x, n.y) = spec_default_spawn s.notes.length) ∧
    (∀ c : Nat, c < 8 → spec_default_spawn c =
      (140 * Real.cos (((c : ℝ) / 8) * (2 * Real.pi)),
       140 * Real.sin (((c : ℝ) / 8) * (2 * Real.pi)))) ∧
    spec_default_spawn 0 = (140, 0) := by
  have hmatch : (match p.x, p.y with
      | some x, some y => ((x : ℝ), (y : ℝ))
      | _, _ => default_spawn_position s.notes.length) =
      default_spawn_position s.notes.length := by
    rcases hpos with hx | hy
    · rw [hx]
    · cases hx2 : p.x with
      | none => rfl
      | some x => rw [hy]
  refine ⟨?_, ?_, ?_⟩
  · rw [create_note_notes s now p ht]
    refine ⟨_, rfl, ?_⟩
    show ((match p.x, p.y with
      | some x, some y => ((x : ℝ), (y : ℝ))
      | _, _ => default_spawn_position s.notes.length).1,
      (match p.x, p.y with
      | some x, some y => ((x : ℝ), (y : ℝ))
      | _, _ => default_spawn_position s.notes.length).2) = _
    rw [Prod.mk.eta, hmatch, default_spawn_eq_spec]
  · intro c hc
    rw [spec_default_spawn, Nat.mod_eq_of_lt hc, Nat.div_eq_of_lt hc]
    norm_num
  · rw [spec_default_spawn]
    norm_num

/-- Witness for C5: creating a note with no position in the one-note store
lands it at the default-spawn position for count 1. -/
theorem claim_C5_default_spawn_witness :
    (∃ n, (exS1.create_note 3 ⟨"w", none, none, none, none, none⟩).2.notes =
      exS1.notes ++ [n] ∧ (n.x, n.y) = spec_default_spawn exS1.notes.length) ∧
    spec_default_spawn 0 = (140, 0) := by
  have h := claim_C5_default_spawn exS1 3 ⟨"w", none, none, none, none, none⟩
    (by decide) (Or.inl rfl)
  exact ⟨h.1, h.2.2⟩

theorem insertDescBy_perm {α : Type} (key : α → Nat) (x : α) (l : List α) :
    (insertDescBy key x l).Perm (x :: l) := by
  induction l with
  | nil => exact List.Perm.refl _
  | cons y ys ih =>
    by_cases h : key x < key y
    · rw [insertDescBy, if_pos h]
      exact (ih.cons y).trans (List.Perm.swap x y ys)
    · rw [insertDescBy, if_neg h]

theorem sortDescBy_perm {α : Type} (key : α → Nat) (l : List α) :
    (sortDescBy key l).Perm l := by
  induction l with
  | nil => exact List.Perm.refl _
  | cons x xs ih => exact (insertDescBy_perm key x _).trans (ih.cons x)

theorem insertDescBy_sorted {α : Type} (key : α → Nat) (x : α) {l : List α}
    (h : l.Pairwise (fun a b => key b ≤ key a)) :
    (insertDescBy key x l).Pairwise (fun a b => key b ≤ key a) := by
  induction l with
  | nil => simp [insertDescBy]
  | cons y ys ih =>
    obtain ⟨hy, hys⟩ := List.pairwise_cons.mp h
    by_cases hxy : key x < key y
    · rw [insertDescBy, if_pos hxy]
      refine List.pairwise_cons.mpr ⟨?_, ih hys⟩
      intro b hb
      rcases List.mem_cons.mp ((insertDescBy_perm key x ys).mem_iff.mp hb)
          with rfl | hbys
      · exact le_of_lt hxy
      · exact hy b hbys
    · rw [insertDescBy, if_neg hxy]
      have hyx : key y ≤ key x := le_of_not_lt hxy
      refine List.pairwise_cons.mpr ⟨?_, h⟩
      intro b hb
      rcases List.mem_cons.mp hb with rfl | hbys
      · exact hyx
      · exact le_trans (hy b hbys) hyx

theorem sortDescBy_sorted {α : Type} (key : α → Nat) (l : List α) :
    (sortDescBy key l).Pairwise (fun a b => key b ≤ key a) := by
  induction l with
  | nil => exact List.Pairwise.nil
  | cons x xs ih => exact insertDescBy_sorted key x ih

theorem resolve_ids_eq_filterMap (s : Store) (ids : List Int) :
    s.resolve_ids ids = ids.filterMap s.get_note := by
  induction ids with
  | nil => rfl
  | cons i rest ih =>
    cases hg : s.get_note i with
    | some n => simp [Store.resolve_ids, hg, ih, List.filterMap_cons]
    | none => simp [Store.resolve_ids, hg, ih, List.filterMap_cons]

theorem likeMatch_percent_all : ∀ t : List Char, likeMatch ['%'] t = true := by
  intro t
  induction t with
  | nil => simp [likeMatch]
  | cons d t' ih => simp [likeMatch, ih]

theorem likeMatch_append_percent : ∀ (p : List Char),
    (∀ c ∈ p, c ≠ '%' ∧ c ≠ '_') → ∀ t : List Char,
      likeMatch (p ++ ['%']) t =
        (p.map asciiLower).isPrefixOf (t.map asciiLower) := by
  intro p
  induction p with
  | nil =>
    intro _ t
    simp only [List.nil_append, List.map_nil]
    rw [likeMatch_percent_all t]
    cases t <;> rfl
  | cons c p' ih =>
    intro hmeta t
    obtain ⟨hc1, hc2⟩ := hmeta c (List.mem_cons_self _ _)
    have hrest : ∀ x ∈ p', x ≠ '%' ∧ x ≠ '_' :=
      fun x hx => hmeta x (List.mem_cons_of_mem _ hx)
    cases t with
    | nil => simp [likeMatch, hc1, List.isPrefixOf]
    | cons d t' =>
      simp only [List.cons_append, likeMatch, if_neg hc1, if_neg hc2,
        List.map_cons, List.isPrefixOf]
      rw [ih hrest t']

theorem likeMatch_percent_head (r : List Char) : ∀ t : List Char,
    likeMatch ('%' :: r) t = t.tails.any (fun sfx => likeMatch r sfx) := by
  intro t
  induction t with
  | nil => simp [likeMatch]
  | cons d t' ih => simp [likeMatch, List.tails_cons, ih]

theorem sqlLike_eq_substring_of_no_meta {q : String}
    (h : hasLikeMeta q = false) (hay : String) :
    sqlLikeContains hay q = strContainsCI hay q := by
  have h' : q.data.any (fun c => c == '%' || c == '_') = false := h
  have hmeta : ∀ c ∈ q.data, c ≠ '%' ∧ c ≠ '_' := by
    intro c hc
    have hcc := List.any_eq_false.mp h' c hc
    constructor
    · intro hcon
      exact hcc (by simp [hcon])
    · intro hcon
      exact hcc (by simp [hcon])
  have hfun : (fun sfx : List Char => likeMatch (q.data ++ ['%']) sfx) =
      (fun sfx : List Char =>
        (q.data.map asciiLower).isPrefixOf (sfx.map asciiLower)) :=
    funext fun sfx => likeMatch_append_percent q.data hmeta sfx
  show likeMatch (('%' :: q.data) ++ ['%']) hay.data =
    (hay.data.map asciiLower).tails.any
      (fun t => (q.data.map asciiLower).isPrefixOf t)
  rw [List.cons_append, likeMatch_percent_head, hfun, List.map_tails,
    List.any_map]
  rfl

/-- Claim C6, counterexample to the claim as stated: the fallback embeds the
query UNESCAPED in the SQL pattern `'%' || q || '%'`, so LIKE wildcards in
the query stay active. With the index returning zero ids, the query "_"
must, per the claim, be a case-insensitive substring scan — which matches
nothing in the one-note store (no field contains a literal underscore) —
yet the program returns note 1, whose title "a" matches `%_%`. -/
theorem claim_C6_cx :
    exS1.search_notes (fun _ _ => []) "_" 5 = [exNote1] ∧
    (((exS1.list_notes).filter (fun n =>
      strContainsCI n.title "_" || strContainsCI n.subtitle "_" ||
        strContainsCI n.content "_")).take 5).length = 0 := by
  constructor
  · have h1 : sqlLikeContains "a" "_" = true := by
      show likeMatch ['%', '_', '%'] ['a'] = true
      simp [likeMatch]
    have h2 : sqlLikeContains "" "_" = false := by
      show likeMatch ['%', '_', '%'] [] = false
      simp [likeMatch]
    have hstep : exS1.search_notes (fun _ _ => []) "_" 5 =
        (List.filter (fun n : Note =>
          sqlLikeContains n.title "_" || sqlLikeContains n.subtitle "_" ||
            sqlLikeContains n.content "_") [exNote1]).take 5 := rfl
    rw [hstep]
    have hpred : (sqlLikeContains exNote1.title "_" ||
        sqlLikeContains exNote1.subtitle "_" ||
        sqlLikeContains exNote1.content "_") = true := by
      show (sqlLikeContains "a" "_" || sqlLikeContains "" "_" ||
        sqlLikeContains "" "_") = true
      rw [h1, h2]
      rfl
    simp [List.filter_cons, hpred]
  · decide

/-- Claim C6 as amended: `search_notes` returns [] without error on a
whitespace-only query; resolves index ids in order, skipping vanished ids,
with no fallback, whenever the index returns at least one id; falls back —
exactly when the index returns zero ids — to the scan retaining the notes
whose title/subtitle/content match the SQL pattern LIKE '%query%'
(ASCII-case-insensitive, the query embedded unescaped so its `%` and `_`
act as wildcards), ordered by last-modified descending and truncated to the
limit; and for queries containing no LIKE metacharacter that scan is
exactly the spec's case-insensitive substring scan. -/
theorem claim_C6_search (s : Store) (searchIds : String → Nat → List Int)
    (q : String) (limit : Nat) :
    ((strTrim q).data.isEmpty = true → s.search_notes searchIds q limit = []) ∧
    ((strTrim q).data.isEmpty = false → searchIds (strTrim q) limit ≠ [] →
      s.search_notes searchIds q limit =
        (searchIds (strTrim q) limit).filterMap s.get_note) ∧
    ((strTrim q).data.isEmpty = false → searchIds (strTrim q) limit = [] →
      s.search_notes searchIds q limit =
        ((s.list_notes).filter (fun n =>
          sqlLikeContains n.title (strTrim q) ||
            sqlLikeContains n.subtitle (strTrim q) ||
            sqlLikeContains n.content (strTrim q))).take limit ∧
      (s.search_notes searchIds q limit).length ≤ limit ∧
      (∀ n ∈ s.search_notes searchIds q limit, n ∈ s.notes ∧
        (sqlLikeContains n.title (strTrim q) ||
          sqlLikeContains n.subtitle (strTrim q) ||
          sqlLikeContains n.content (strTrim q)) = true) ∧
      (s.search_notes searchIds q limit).Pairwise
        (fun a b => b.updated_at ≤ a.updated_at)) ∧
    (hasLikeMeta (strTrim q) = false → ∀ hay,
      sqlLikeContains hay (strTrim q) = strContainsCI hay (strTrim q)) := by
  refine ⟨fun h => ?_, fun h hne => ?_, fun h hnil => ?_,
    fun hm hay => sqlLike_eq_substring_of_no_meta hm hay⟩
  · simp [Store.search_notes, h]
  · have hie : (searchIds (strTrim q) limit).isEmpty = false := by
      cases hcase : searchIds (strTrim q) limit with
      | nil => exact absurd hcase hne
      | cons a l => rfl
    simp only [Store.search_notes, h, Bool.false_eq_true, if_false, hie,
      Bool.not_false, if_true]
    exact resolve_ids_eq_filterMap s _
  · have hie : (searchIds (strTrim q) limit).isEmpty = true := by
      rw [hnil]; rfl
    have heq : s.search_notes searchIds q limit =
        ((s.list_notes).filter (fun n =>
          sqlLikeContains n.title (strTrim q) ||
            sqlLikeContains n.subtitle (strTrim q) ||
            sqlLikeContains n.content (strTrim q))).take limit := by
      simp only [Store.search_notes, h, Bool.false_eq_true, if_false, hie,
        Bool.not_true, if_false]
    have hsub : (((s.list_notes).filter (fun n =>
        sqlLikeContains n.title (strTrim q) ||
          sqlLikeContains n.subtitle (strTrim q) ||
          sqlLikeContains n.content (strTrim q))).take limit).Sublist
        (s.list_notes) :=
      (List.take_sublist _ _).trans (List.filter_sublist _)
    refine ⟨heq, ?_, ?_, ?_⟩
    · rw [heq, List.length_take]
      exact min_le_left _ _
    · intro n hn
      rw [heq] at hn
      have hnf := (List.take_sublist _ _).subset hn
      obtain ⟨hmem, hpred⟩ := List.mem_filter.mp hnf
      exact ⟨(sortDescBy_perm Note.updated_at s.notes).mem_iff.mp hmem, hpred⟩
    · rw [heq]
      exact (sortDescBy_sorted Note.updated_at s.notes).sublist hsub

/-- Witness for the amended C6: the empty-query branch, the index-hit
branch, and the metacharacter-free substring reading at the two-note
store. -/
theorem claim_C6_search_witness :
    exS2.search_notes (fun _ _ => []) "  " 5 = [] ∧
    exS2.search_notes (fun _ _ => [1]) "b" 5 =
      ([1] : List Int).filterMap exS2.get_note ∧
    (∀ hay, sqlLikeContains hay (strTrim "b") =
      strContainsCI hay (strTrim "b")) := by
  have h1 := (claim_C6_search exS2 (fun _ _ => []) "  " 5).1 (by decide)
  have h2 := (claim_C6_search exS2 (fun _ _ => [1]) "b" 5).2.1 (by decide)
    (by decide)
  have h3 := (claim_C6_search exS2 (fun _ _ => [1]) "b" 5).2.2.2 (by decide)
  exact ⟨h1, h2, h3⟩

theorem ringBlock_map_fst (g : Nat) (s : Nat) (l : List Int) :
    (ringBlock g s l).map (fun e => e.1) = l := by
  induction l generalizing s with
  | nil => rfl
  | cons i rest ih => simp [ringBlock, ih]

theorem ringBlock_length (g : Nat) (s : Nat) (l : List Int) :
    (ringBlock g s l).length = l.length := by
  induction l generalizing s with
  | nil => rfl
  | cons i rest ih => simp [ringBlock, ih]

theorem mem_ringBlock {g s : Nat} {l : List Int} {e : Int × Nat × Nat}
    (h : e ∈ ringBlock g s l) :
    e.2.1 = g ∧ s ≤ e.2.2 ∧ e.2.2 < s + l.length := by
  induction l generalizing s with
  | nil => cases h
  | cons i rest ih =>
    rcases List.mem_cons.mp h with rfl | hm
    · refine ⟨rfl, le_refl s, ?_⟩
      show s < s + (rest.length + 1)
      omega
    · obtain ⟨h1, h2, h3⟩ := ih hm
      refine ⟨h1, by omega, ?_⟩
      show e.2.2 < s + (rest.length + 1)
      omega

theorem ringBlock_pairwise (g : Nat) (s : Nat) (l : List Int) :
    (ringBlock g s l).Pairwise (fun a b => a.2.2 < b.2.2) := by
  induction l generalizing s with
  | nil => exact List.Pairwise.nil
  | cons i rest ih =>
    refine List.pairwise_cons.mpr ⟨?_, ih (s + 1)⟩
    intro b hb
    have h2 := (mem_ringBlock hb).2.1
    show s < b.2.2
    omega

theorem assignRing_map_fst (l : List Int) (r : Nat) :
    (assignRing l r).map (fun e => e.1) = l := by
  induction l, r using assignRing.induct with
  | case1 r => simp [assignRing]
  | case2 id rest ih => simp [assignRing, ih]
  | case3 id rest r ih =>
    rw [assignRing, List.map_append, ringBlock_map_fst, ih,
      List.take_append_drop]

theorem assignRing_ring_ge (l : List Int) (r : Nat) :
    ∀ e ∈ assignRing l r, r ≤ e.2.1 := by
  induction l, r using assignRing.induct with
  | case1 r => intro e he; simp [assignRing] at he
  | case2 id rest ih =>
    intro e he
    rw [assignRing] at he
    rcases List.mem_cons.mp he with rfl | hm
    · exact Nat.zero_le _
    · exact Nat.zero_le _
  | case3 id rest r ih =>
    intro e he
    rw [assignRing] at he
    rcases List.mem_append.mp he with hm | hm
    · exact (mem_ringBlock hm).1.ge
    · exact le_trans (Nat.le_succ _) (ih e hm)

theorem assignRing_valid (l : List Int) (r : Nat) :
    ∀ e ∈ assignRing l r,
      (e.2.1 = 0 → e.2.2 = 0) ∧ (0 < e.2.1 → e.2.2 < 6 * e.2.1) := by
  induction l, r using assignRing.induct with
  | case1 r => intro e he; simp [assignRing] at he
  | case2 id rest ih =>
    intro e he
    rw [assignRing] at he
    rcases List.mem_cons.mp he with rfl | hm
    · exact ⟨fun _ => rfl, fun h => absurd h (by simp)⟩
    · exact ih e hm
  | case3 id rest r ih =>
    intro e he
    rw [assignRing] at he
    rcases List.mem_append.mp he with hm | hm
    · obtain ⟨h1, -, h3⟩ := mem_ringBlock hm
      constructor
      · intro h0
        rw [h0] at h1
        cases h1
      · intro hpos
        rw [h1]
        have hlen : ((id :: rest).take (6 * (r + 1))).length ≤ 6 * (r + 1) := by
          rw [List.length_take]
          exact min_le_left _ _
        omega
    · exact ih e hm

theorem assignRing_pairwise (l : List Int) (r : Nat) :
    (assignRing l r).Pairwise (fun a b => a.2 ≠ b.2) := by
  induction l, r using assignRing.induct with
  | case1 r => simp [assignRing]
  | case2 id rest ih =>
    rw [assignRing]
    refine List.pairwise_cons.mpr ⟨?_, ih⟩
    intro b hb
    have h1 : 1 ≤ b.2.1 := assignRing_ring_ge rest 1 b hb
    intro hcon
    have : (0 : Nat) = b.2.1 := congrArg Prod.fst hcon
    omega
  | case3 id rest r ih =>
    rw [assignRing]
    rw [List.pairwise_append]
    refine ⟨?_, ih, ?_⟩
    · refine (ringBlock_pairwise _ _ _).imp_of_mem ?_
      intro a b ha hb hab hcon
      have : a.2.2 = b.2.2 := congrArg Prod.snd hcon
      omega
    · intro a ha b hb
      have h1 : a.2.1 = r + 1 := (mem_ringBlock ha).1
      have h2 : r + 2 ≤ b.2.1 := assignRing_ring_ge _ _ b hb
      intro hcon
      have : a.2.1 = b.2.1 := congrArg Prod.fst hcon
      omega

theorem assignRing_ring_count (l : List Int) (r0 : Nat) (rr : Nat)
    (h : 0 < rr) :
    ((assignRing l r0).filter (fun e => e.2.1 == rr)).length ≤ 6 * rr := by
  induction l, r0 using assignRing.induct with
  | case1 r => simp [assignRing]
  | case2 id rest ih =>
    rw [assignRing]
    have hhead : (((id, 0, 0) : Int × Nat × Nat).2.1 == rr) = false := by
      simp
      omega
    rw [List.filter_cons_of_neg (by simp [hhead])]
    exact ih
  | case3 id rest r ih =>
    rw [assignRing, List.filter_append, List.length_append]
    by_cases hrr : rr = r + 1
    · have hrec : (assignRing ((id :: rest).drop (6 * (r + 1))) (r + 2)).filter
          (fun e => e.2.1 == rr) = [] := by
        rw [List.filter_eq_nil_iff]
        intro e he
        have := assignRing_ring_ge _ _ e he
        simp only [beq_iff_eq]
        omega
      rw [hrec]
      simp only [List.length_nil, Nat.add_zero]
      calc ((ringBlock (r + 1) 0 ((id :: rest).take (6 * (r + 1)))).filter
            (fun e => e.2.1 == rr)).length
          ≤ (ringBlock (r + 1) 0 ((id :: rest).take (6 * (r + 1)))).length :=
            List.length_filter_le _ _
        _ = ((id :: rest).take (6 * (r + 1))).length :=
            ringBlock_length _ _ _
        _ ≤ 6 * (r + 1) := by
            rw [List.length_take]
            exact min_le_left _ _
        _ = 6 * rr := by rw [hrr]
    · have hblock : (ringBlock (r + 1) 0 ((id :: rest).take (6 * (r + 1)))).filter
          (fun e => e.2.1 == rr) = [] := by
        rw [List.filter_eq_nil_iff]
        intro e he
        have := (mem_ringBlock he).1
        simp only [beq_iff_eq]
        omega
      rw [hblock]
      simpa using ih

theorem angle_slot_inj {m : Nat} (hm : 0 < m) {a b : Nat} (ha : a < m)
    (hb : b < m)
    (hc : Real.cos (((a : ℝ) / (m : ℝ)) * (2 * Real.pi)) =
      Real.cos (((b : ℝ) / (m : ℝ)) * (2 * Real.pi)))
    (hs : Real.sin (((a : ℝ) / (m : ℝ)) * (2 * Real.pi)) =
      Real.sin (((b : ℝ) / (m : ℝ)) * (2 * Real.pi))) : a = b := by
  have hm' : (0 : ℝ) < (m : ℝ) := by exact_mod_cast hm
  have hpi := Real.pi_pos
  have hda1 : 0 ≤ (a : ℝ) / (m : ℝ) := by positivity
  have hda2 : (a : ℝ) / (m : ℝ) < 1 := (div_lt_one hm').mpr (by exact_mod_cast ha)
  have hdb1 : 0 ≤ (b : ℝ) / (m : ℝ) := by positivity
  have hdb2 : (b : ℝ) / (m : ℝ) < 1 := (div_lt_one hm').mpr (by exact_mod_cast hb)
  obtain ⟨k, hk⟩ := Real.Angle.angle_eq_iff_two_pi_dvd_sub.mp
    (Real.Angle.cos_sin_inj hc hs)
  have hub : ((a : ℝ) / (m : ℝ)) * (2 * Real.pi) -
      ((b : ℝ) / (m : ℝ)) * (2 * Real.pi) < 2 * Real.pi := by nlinarith
  have hlb : -(2 * Real.pi) < ((a : ℝ) / (m : ℝ)) * (2 * Real.pi) -
      ((b : ℝ) / (m : ℝ)) * (2 * Real.pi) := by nlinarith
  have hk1 : (k : ℝ) < 1 := by nlinarith
  have hk2 : (-1 : ℝ) < (k : ℝ) := by nlinarith
  have hk0 : k = 0 := by
    have h1 : k < 1 := by exact_mod_cast hk1
    have h2 : -1 < k := by exact_mod_cast hk2
    omega
  rw [hk0] at hk
  have heq : ((a : ℝ) / (m : ℝ)) * (2 * Real.pi) =
      ((b : ℝ) / (m : ℝ)) * (2 * Real.pi) := by
    simp only [Int.cast_zero, mul_zero] at hk
    linarith
  have h2p : (2 * Real.pi) ≠ 0 := by positivity
  have hdiv := mul_right_cancel₀ h2p heq
  have hab : (a : ℝ) = (b : ℝ) := by
    field_simp at hdiv
    exact_mod_cast hdiv
  exact_mod_cast hab

theorem radius_eq_of_point_eq {r1 r2 : Nat} (h1 : 0 < r1) (h2 : 0 < r2)
    {t1 t2 : ℝ}
    (hx : (r1 : ℝ) * 180 * Real.cos t1 = (r2 : ℝ) * 180 * Real.cos t2)
    (hy : (r1 : ℝ) * 180 * Real.sin t1 = (r2 : ℝ) * 180 * Real.sin t2) :
    r1 = r2 := by
  have ha : ((r1 : ℝ) * 180 * Real.sin t1) ^ 2 +
      ((r1 : ℝ) * 180 * Real.cos t1) ^ 2 = ((r1 : ℝ) * 180) ^ 2 := by
    have h := Real.sin_sq_add_cos_sq t1
    calc ((r1 : ℝ) * 180 * Real.sin t1) ^ 2 +
          ((r1 : ℝ) * 180 * Real.cos t1) ^ 2
        = ((r1 : ℝ) * 180) ^ 2 * (Real.sin t1 ^ 2 + Real.cos t1 ^ 2) := by ring
      _ = ((r1 : ℝ) * 180) ^ 2 := by rw [h, mul_one]
  have hb : ((r2 : ℝ) * 180 * Real.sin t2) ^ 2 +
      ((r2 : ℝ) * 180 * Real.cos t2) ^ 2 = ((r2 : ℝ) * 180) ^ 2 := by
    have h := Real.sin_sq_add_cos_sq t2
    calc ((r2 : ℝ) * 180 * Real.sin t2) ^ 2 +
          ((r2 : ℝ) * 180 * Real.cos t2) ^ 2
        = ((r2 : ℝ) * 180) ^ 2 * (Real.sin t2 ^ 2 + Real.cos t2 ^ 2) := by ring
      _ = ((r2 : ℝ) * 180) ^ 2 := by rw [h, mul_one]
  have hsq : ((r1 : ℝ) * 180) ^ 2 = ((r2 : ℝ) * 180) ^ 2 := by
    rw [← ha, ← hb, hx, hy]
  have hfac : (((r1 : ℝ) * 180) - ((r2 : ℝ) * 180)) *
      (((r1 : ℝ) * 180) + ((r2 : ℝ) * 180)) = 0 := by
    calc (((r1 : ℝ) * 180) - ((r2 : ℝ) * 180)) *
          (((r1 : ℝ) * 180) + ((r2 : ℝ) * 180))
        = ((r1 : ℝ) * 180) ^ 2 - ((r2 : ℝ) * 180) ^ 2 := by ring
      _ = 0 := by rw [hsq]; ring
  have hr1 : (1 : ℝ) ≤ (r1 : ℝ) := by exact_mod_cast h1
  have hr2 : (1 : ℝ) ≤ (r2 : ℝ) := by exact_mod_cast h2
  rcases mul_eq_zero.mp hfac with hca | hca
  · have : (r1 : ℝ) = (r2 : ℝ) := by linarith
    exact_mod_cast this
  · exfalso
    linarith

theorem ring_point_ne_origin {r : Nat} (hr : 0 < r) (t : ℝ)
    (hx : (r : ℝ) * 180 * Real.cos t = 0)
    (hy : (r : ℝ) * 180 * Real.sin t = 0) : False := by
  have hr' : (0 : ℝ) < (r : ℝ) := by exact_mod_cast hr
  have hrne : (r : ℝ) * 180 ≠ 0 := by positivity
  have hcos : Real.cos t = 0 := by
    rcases mul_eq_zero.mp hx with h | h
    · exact absurd h hrne
    · exact h
  have hsin : Real.sin t = 0 := by
    rcases mul_eq_zero.mp hy with h | h
    · exact absurd h hrne
    · exact h
  have h := Real.sin_sq_add_cos_sq t
  rw [hcos, hsin] at h
  norm_num at h

theorem layout_point_inj {r1 s1 r2 s2 : Nat}
    (hv1 : r1 = 0 → s1 = 0) (hb1 : 0 < r1 → s1 < 6 * r1)
    (hv2 : r2 = 0 → s2 = 0) (hb2 : 0 < r2 → s2 < 6 * r2)
    (heq : layout_point r1 s1 = layout_point r2 s2) :
    r1 = r2 ∧ s1 = s2 := by
  rcases Nat.eq_zero_or_pos r1 with hr1 | hr1 <;>
    rcases Nat.eq_zero_or_pos r2 with hr2 | hr2
  · exact ⟨hr1.trans hr2.symm, (hv1 hr1).trans (hv2 hr2).symm⟩
  · exfalso
    rw [layout_point, layout_point, if_pos hr1,
      if_neg (Nat.pos_iff_ne_zero.mp hr2)] at heq
    exact ring_point_ne_origin hr2 _ (congrArg Prod.fst heq).symm
      (congrArg Prod.snd heq).symm
  · exfalso
    rw [layout_point, layout_point, if_pos hr2,
      if_neg (Nat.pos_iff_ne_zero.mp hr1)] at heq
    exact ring_point_ne_origin hr1 _ (congrArg Prod.fst heq)
      (congrArg Prod.snd heq)
  · rw [layout_point, layout_point, if_neg (Nat.pos_iff_ne_zero.mp hr1),
      if_neg (Nat.pos_iff_ne_zero.mp hr2)] at heq
    have hx := congrArg Prod.fst heq
    have hy := congrArg Prod.snd heq
    have hrr := radius_eq_of_point_eq hr1 hr2 hx hy
    subst hrr
    have hr1' : (0 : ℝ) < (r1 : ℝ) := by exact_mod_cast hr1
    have hrne : (r1 : ℝ) * 180 ≠ 0 := by positivity
    have hcos := mul_left_cancel₀ hrne hx
    have hsin := mul_left_cancel₀ hrne hy
    have hm : 0 < 6 * r1 := by omega
    exact ⟨rfl, angle_slot_inj hm (hb1 hr1) (hb2 hr1) hcos hsin⟩

theorem assignRing_cons_zero (x : Int) (l : List Int) :
    assignRing (x :: l) 0 = (x, 0, 0) :: assignRing l 1 := by
  rw [assignRing]

theorem sortDescBy_head_decomp {α : Type} (key : α → Nat) :
    ∀ l : List α, l ≠ [] →
      ∃ top rest, sortDescBy key l = top :: rest ∧
        (∃ pre post, l = pre ++ top :: post ∧
          (∀ a ∈ pre, key a < key top)) ∧
        (∀ a ∈ l, key a ≤ key top) := by
  intro l
  induction l with
  | nil => intro h; exact absurd rfl h
  | cons x xs ih =>
    intro hne
    cases hxs : xs with
    | nil =>
      subst hxs
      refine ⟨x, [], rfl, ⟨[], [], rfl, by simp⟩, ?_⟩
      intro a ha
      rcases List.mem_cons.mp ha with rfl | h
      · exact le_refl _
      · cases h
    | cons y ys =>
      subst hxs
      obtain ⟨t, rest, hsort, ⟨pre, post, hdecomp, hpre⟩, hmax⟩ :=
        ih (by simp)
      by_cases hxt : key x < key t
      · refine ⟨t, insertDescBy key x rest, ?_, ⟨x :: pre, post, ?_, ?_⟩, ?_⟩
        · rw [sortDescBy, hsort, insertDescBy, if_pos hxt]
        · rw [List.cons_append, hdecomp]
        · intro a ha
          rcases List.mem_cons.mp ha with rfl | h
          · exact hxt
          · exact hpre a h
        · intro a ha
          rcases List.mem_cons.mp ha with rfl | h
          · exact le_of_lt hxt
          · exact hmax a h
      · have hxt' : key t ≤ key x := le_of_not_lt hxt
        refine ⟨x, t :: rest, ?_, ⟨[], y :: ys, rfl, by simp⟩, ?_⟩
        · rw [sortDescBy, hsort, insertDescBy, if_neg hxt]
        · intro a ha
          rcases List.mem_cons.mp ha with rfl | h
          · exact le_refl _
          · exact le_trans (hmax a h) hxt'

/-- Claim C4: `auto_layout_assign` lists the ids in stable degree-descending
order; ring 0 holds exactly the single highest-degree id (the first id, in
pre-existing order, attaining the maximal degree); every ring r ≥ 1 entry
sits in a slot below 6·r and ring r holds at most 6·r ids; and (in
particular with no links) the resulting ring/slot coordinates
(origin for ring 0, radius 180·r and angle 2π·slot/(6·r) otherwise) are
pairwise distinct points of the plane. -/
theorem claim_C4_auto_layout (ids : List Int) (links : List (Int × Int))
    (hne : ids ≠ []) :
    ((auto_layout_assign ids links).map (fun e => e.1) =
      sortDescBy (degree links) ids) ∧
    (∃ top pre post,
      (auto_layout_assign ids links).filter (fun e => e.2.1 == 0) =
        [(top, 0, 0)] ∧
      ids = pre ++ top :: post ∧
      (∀ a ∈ pre, degree links a < degree links top) ∧
      (∀ a ∈ ids, degree links a ≤ degree links top)) ∧
    (∀ e ∈ auto_layout_assign ids links, 0 < e.2.1 → e.2.2 < 6 * e.2.1) ∧
    (∀ rr : Nat, 0 < rr →
      ((auto_layout_assign ids links).filter
        (fun e => e.2.1 == rr)).length ≤ 6 * rr) ∧
    (links = [] →
      ((auto_layout_assign ids links).map
        (fun e => layout_point e.2.1 e.2.2)).Pairwise
          (fun p1 p2 => p1 ≠ p2)) := by
  obtain ⟨top, rest, hsort, ⟨pre, post, hdecomp, hpre⟩, hmax⟩ :=
    sortDescBy_head_decomp (degree links) ids hne
  refine ⟨assignRing_map_fst _ 0, ⟨top, pre, post, ?_, hdecomp, hpre, hmax⟩,
    fun e he => (assignRing_valid _ 0 e he).2, fun rr h =>
      assignRing_ring_count _ 0 rr h, fun _ => ?_⟩
  · rw [auto_layout_assign, hsort, assignRing_cons_zero]
    rw [List.filter_cons_of_pos (by simp)]
    have hrest : (assignRing rest 1).filter (fun e => e.2.1 == 0) = [] := by
      rw [List.filter_eq_nil_iff]
      intro e he
      have := assignRing_ring_ge rest 1 e he
      simp only [beq_iff_eq]
      omega
    rw [hrest]
  · refine List.pairwise_map.mpr ((assignRing_pairwise _ 0).imp_of_mem ?_)
    intro a b ha hb hab hcon
    obtain ⟨hr, hs⟩ := layout_point_inj
      (assignRing_valid _ 0 a ha).1 (assignRing_valid _ 0 a ha).2
      (assignRing_valid _ 0 b hb).1 (assignRing_valid _ 0 b hb).2 hcon
    exact hab (Prod.ext_iff.mpr ⟨hr, hs⟩)

/-- Witness for C4 at two notes and no links. -/
theorem claim_C4_auto_layout_witness :
    (auto_layout_assign [1, 2] []).map (fun e => e.1) =
      sortDescBy (degree []) [1, 2] :=
  (claim_C4_auto_layout [1, 2] [] (by decide)).1

end GraphAlfred
